import Mathlib

/-
Verification of the blinded fixed-point homomorphic toy scheme
`ToyHomomorphicEncryptionEnhanced` (src/cao.py) against its design
specification.

Modelling conventions:
* Plaintexts are modelled as exact rationals.  The Python source performs
  some intermediate arithmetic on IEEE doubles; following the design note
  that mandates an explicit rounding rule on rational intermediates, every
  real-valued division/rounding step is modelled exactly over the rationals
  with Python's round-half-to-even rule.
* Python `int(x)` is truncation toward zero (`truncQ`); Python `round(x)`
  is round-half-to-even (`rhe`); Python `round(x, 5)` is `round5`.
* Python `%` on integers with a positive modulus agrees with `Int.emod`.
* Ciphertexts are the fixed-width lowercase hexadecimal strings produced by
  `int.to_bytes(..).hex()`, modelled as `List Char`.  `bytes.fromhex`
  accepts any even number of hex digits and raises `ValueError` otherwise;
  this is modelled by `CAO.hexDecode` returning `Except`.  (The ASCII-space
  allowance of `bytes.fromhex` between byte pairs is not modelled; no
  property below concerns strings containing spaces.)
* Exceptions are modelled by `Except CAO.Err`: `ValueError` from
  `bytes.fromhex` as `Err.format`, `OverflowError` from `int.to_bytes` as
  `Err.range`, and `ZeroDivisionError` from `1 / len([])` as
  `Err.emptyInput`, matching the specification's error taxonomy.
* `random.randint`/`random.getrandbits` draws are passed as explicit
  arguments (noise values and key material), so every operation is a pure
  function of its inputs and the draws.
-/

attribute [local semireducible] Rat.add Rat.sub Rat.mul Rat.inv

namespace CAO

/-- Python `int(x)`: truncation of a rational toward zero. -/
def truncQ (q : ℚ) : ℤ :=
  if 0 ≤ q then ⌊q⌋ else ⌈q⌉

/-- Python `round(x)`: round half to even on an exact rational. -/
def rhe (q : ℚ) : ℤ :=
  if q - ⌊q⌋ < 1/2 then ⌊q⌋
  else if 1/2 < q - ⌊q⌋ then ⌊q⌋ + 1
  else if 2 ∣ ⌊q⌋ then ⌊q⌋ else ⌊q⌋ + 1

/-- Python `round(x, 5)`: rounding to five decimal places. -/
def round5 (q : ℚ) : ℚ :=
  (rhe (q * 100000) : ℚ) / 100000

theorem truncQ_intCast (z : ℤ) : truncQ (z : ℚ) = z := by
  unfold truncQ
  split <;> simp

theorem rhe_intCast (z : ℤ) : rhe (z : ℚ) = z := by
  unfold rhe
  rw [Int.floor_intCast]
  norm_num

theorem abs_truncQ_sub_le (q : ℚ) : |(truncQ q : ℚ) - q| ≤ 1 := by
  unfold truncQ
  split
  · have h1 : (⌊q⌋ : ℚ) ≤ q := Int.floor_le q
    have h2 : q - 1 < (⌊q⌋ : ℚ) := Int.sub_one_lt_floor q
    rw [abs_le]
    constructor <;> linarith
  · have h1 : q ≤ (⌈q⌉ : ℚ) := Int.le_ceil q
    have h2 : (⌈q⌉ : ℚ) < q + 1 := Int.ceil_lt_add_one q
    rw [abs_le]
    constructor <;> linarith

theorem abs_rhe_sub_le (q : ℚ) : |(rhe q : ℚ) - q| ≤ 1/2 := by
  have h1 : (⌊q⌋ : ℚ) ≤ q := Int.floor_le q
  have h2 : q < (⌊q⌋ : ℚ) + 1 := Int.lt_floor_add_one q
  unfold rhe
  split
  · rename_i h
    rw [abs_le]; constructor <;> linarith
  · split
    · rename_i h h'
      rw [abs_le]; constructor <;> push_cast <;> linarith
    · rename_i h h'
      have he : q - (⌊q⌋ : ℚ) = 1/2 := le_antisymm (not_lt.mp h') (not_lt.mp h)
      split <;> (rw [abs_le]; constructor <;> push_cast <;> linarith)

theorem abs_round5_sub_le (q : ℚ) : |round5 q - q| ≤ 1/200000 := by
  have h := abs_rhe_sub_le (q * 100000)
  unfold round5
  have : (rhe (q * 100000) : ℚ) / 100000 - q
      = ((rhe (q * 100000) : ℚ) - q * 100000) / 100000 := by ring
  rw [this, abs_div]
  rw [show |(100000 : ℚ)| = 100000 by norm_num]
  rw [div_le_div_iff₀ (by norm_num) (by norm_num)]
  nlinarith [h]

/-- The sixteen hexadecimal digit characters, as produced by `bytes.hex()`. -/
def hexDigitChar : ℕ → Char
  | 0 => '0' | 1 => '1' | 2 => '2' | 3 => '3'
  | 4 => '4' | 5 => '5' | 6 => '6' | 7 => '7'
  | 8 => '8' | 9 => '9' | 10 => 'a' | 11 => 'b'
  | 12 => 'c' | 13 => 'd' | 14 => 'e' | _ => 'f'

/-- The set of characters `bytes.fromhex` accepts as hexadecimal digits. -/
def isHexDig (c : Char) : Bool :=
  ('0' ≤ c && c ≤ '9') || ('a' ≤ c && c ≤ 'f') || ('A' ≤ c && c ≤ 'F')

/-- Numeric value of a hexadecimal digit character (either case). -/
def hexVal (c : Char) : ℕ :=
  if c ≤ '9' then c.toNat - 48
  else if c ≤ 'F' then c.toNat - 55
  else c.toNat - 87

/-- Big-endian fixed-width hexadecimal rendering of a natural number,
exactly `bytes.hex()` of `int.to_bytes(width, "big")`: the last character
is the least significant digit. -/
def toHexFixed : ℕ → ℕ → List Char
  | 0, _ => []
  | l + 1, v => toHexFixed l (v / 16) ++ [hexDigitChar (v % 16)]

/-- Big-endian value of a hex-digit string, as `int.from_bytes` of
`bytes.fromhex`. -/
def intFromHex (cs : List Char) : ℕ :=
  cs.foldl (fun a c => 16 * a + hexVal c) 0

theorem hexVal_hexDigitChar {d : ℕ} (hd : d < 16) :
    hexVal (hexDigitChar d) = d ∧ isHexDig (hexDigitChar d) = true := by
  interval_cases d <;> exact ⟨by decide, by decide⟩

theorem toHexFixed_length (l v : ℕ) : (toHexFixed l v).length = l := by
  induction l generalizing v with
  | zero => rfl
  | succ n ih => simp [toHexFixed, ih]

theorem toHexFixed_hex (l v : ℕ) :
    (toHexFixed l v).all isHexDig = true := by
  induction l generalizing v with
  | zero => rfl
  | succ n ih =>
    simp only [toHexFixed, List.all_append, Bool.and_eq_true]
    refine ⟨ih _, ?_⟩
    simp [(hexVal_hexDigitChar (Nat.mod_lt v (by norm_num))).2]

theorem intFromHex_append_digit (cs : List Char) (c : Char) :
    intFromHex (cs ++ [c]) = 16 * intFromHex cs + hexVal c := by
  unfold intFromHex
  rw [List.foldl_append]
  rfl

theorem intFromHex_toHexFixed {l v : ℕ} (h : v < 16 ^ l) :
    intFromHex (toHexFixed l v) = v := by
  induction l generalizing v with
  | zero =>
    interval_cases v
    rfl
  | succ n ih =>
    have hdiv : v / 16 < 16 ^ n := by
      rw [Nat.div_lt_iff_lt_mul (by norm_num)]
      calc v < 16 ^ (n + 1) := h
        _ = 16 ^ n * 16 := by ring
    rw [toHexFixed, intFromHex_append_digit, ih hdiv,
      (hexVal_hexDigitChar (Nat.mod_lt v (by norm_num))).1]
    omega

/-- Error kinds raised by the engine, following the specification's
taxonomy: `format` for `ValueError` out of `bytes.fromhex`, `range` for
`OverflowError` out of `int.to_bytes`, and `emptyInput` for the
`ZeroDivisionError` of `1 / len([])`. -/
inductive Err
  | format
  | range
  | emptyInput
  deriving DecidableEq

instance {ε α : Type} [DecidableEq ε] [DecidableEq α] : DecidableEq (Except ε α)
  | .ok a, .ok b =>
    if h : a = b then isTrue (congrArg Except.ok h)
    else isFalse (fun hc => h (Except.ok.inj hc))
  | .ok _, .error _ => isFalse (fun hc => Except.noConfusion hc)
  | .error _, .ok _ => isFalse (fun hc => Except.noConfusion hc)
  | .error a, .error b =>
    if h : a = b then isTrue (congrArg Except.error h)
    else isFalse (fun hc => h (Except.error.inj hc))

/-- The state of one `ToyHomomorphicEncryptionEnhanced` instance:
configuration parameters together with the key material drawn at
construction (`A = getrandbits(A_bits) | 1`, `B = getrandbits(B_bits) | 1`,
`B_inv = pow(B, -1, M)`). -/
structure Engine where
  scale : ℕ
  noise_bound : ℕ
  byte_length : ℕ
  A : ℤ
  B : ℤ
  B_inv : ℤ
  deriving DecidableEq

/-- The modulus `M = 2 ^ (8 * byte_length)`. -/
def Engine.M (e : Engine) : ℤ := 2 ^ (8 * e.byte_length)

/-- Properties every engine built by `__init__` with sensible parameters
has: positive scale and width, positive odd multipliers, and `B_inv` a
modular inverse of `B`. -/
def Engine.Valid (e : Engine) : Prop :=
  0 < e.scale ∧ 0 < e.byte_length ∧ 0 < e.A ∧ 0 < e.B ∧
    (e.B * e.B_inv) % e.M = 1

instance (e : Engine) : Decidable e.Valid := by
  unfold Engine.Valid
  infer_instance

theorem Engine.M_pos (e : Engine) : 0 < e.M := pow_pos (by norm_num) _

/-- Python `_encode`: `value.to_bytes(byte_length, "big", signed=False).hex()`.
`to_bytes` raises `OverflowError` unless `0 ≤ value < M`. -/
def hexEncode (e : Engine) (v : ℤ) : Except Err (List Char) :=
  if 0 ≤ v ∧ v < e.M then Except.ok (toHexFixed (2 * e.byte_length) v.toNat)
  else Except.error Err.range

/-- Python `_decode`: `int.from_bytes(bytes.fromhex(cipher_str), "big")`.
`bytes.fromhex` raises `ValueError` unless the string consists of an even
number of hexadecimal digits; no check against `byte_length` is made. -/
def hexDecode (cs : List Char) : Except Err ℤ :=
  if cs.length % 2 = 0 ∧ cs.all isHexDig = true then
    Except.ok (intFromHex cs : ℤ)
  else Except.error Err.format

/-- Python `encrypt(m)` with the drawn `noise` made explicit:
`base_val = int(m * scale) + noise`; `obf = base_val * A * B % M`. -/
def encrypt (e : Engine) (m : ℚ) (noise : ℤ) : Except Err (List Char) :=
  hexEncode e (((truncQ (m * e.scale) + noise) * e.A * e.B) % e.M)

/-- Python `decrypt(cipher_str)`: remove `B` via `B_inv` modulo `M`, divide by `A`
with rounding, then descale with 5-decimal rounding. -/
def decrypt (e : Engine) (c : List Char) : Except Err ℚ := do
  let obf ← hexDecode c
  pure (round5
    ((rhe ((((obf * e.B_inv) % e.M : ℤ) : ℚ) / (e.A : ℚ)) : ℚ) / (e.scale : ℚ)))

/-- Python `add(cipher1, cipher2)`: decode, add modulo `M`, re-encode. -/
def add (e : Engine) (c1 c2 : List Char) : Except Err (List Char) := do
  let i1 ← hexDecode c1
  let i2 ← hexDecode c2
  hexEncode e ((i1 + i2) % e.M)

/-- Python `subtract(cipher1, cipher2)`: decode, subtract modulo `M`, re-encode. -/
def subtract (e : Engine) (c1 c2 : List Char) : Except Err (List Char) := do
  let i1 ← hexDecode c1
  let i2 ← hexDecode c2
  hexEncode e ((i1 - i2) % e.M)

/-- Python `scalar_multiply(cipher, constant)`: `int(round(int_val * constant)) % M`,
re-encoded. -/
def scalar_multiply (e : Engine) (c : List Char) (k : ℚ) :
    Except Err (List Char) := do
  let iv ← hexDecode c
  hexEncode e ((rhe ((iv : ℚ) * k)) % e.M)

/-- Python `multiply(cipher1, cipher2)`: modular product, then
`corrected = int(round(product / (A * B * scale)))`, then re-blinding
`(corrected * A * B) % M`. -/
def multiply (e : Engine) (c1 c2 : List Char) : Except Err (List Char) := do
  let i1 ← hexDecode c1
  let i2 ← hexDecode c2
  hexEncode e ((rhe ((((i1 * i2) % e.M : ℤ) : ℚ) /
    ((e.A * e.B * e.scale : ℤ) : ℚ)) * e.A * e.B) % e.M)

/-- The body of the `inverse` loop:
`cy = multiply(cipher, y)`; `diff = subtract(two_enc, cy)`;
`y = multiply(y, diff)`. -/
def nrStep (e : Engine) (c twoEnc y : List Char) : Except Err (List Char) := do
  let cy ← multiply e c y
  let diff ← subtract e twoEnc cy
  multiply e y diff

/-- The `for i in range(iterations)` loop of `inverse`. -/
def nrLoop (e : Engine) (c twoEnc : List Char) :
    ℕ → List Char → Except Err (List Char)
  | 0, y => pure y
  | n + 1, y => nrStep e c twoEnc y >>= nrLoop e c twoEnc n

/-- Python `inverse(cipher, iterations)` with the two internal encryption noise
draws made explicit: `y = encrypt(1.0)`, `two_enc = encrypt(2.0)`, then the
Newton iteration. -/
def inverse (e : Engine) (c : List Char) (n1 n2 : ℤ) (iterations : ℕ) :
    Except Err (List Char) := do
  let y ← encrypt e 1 n1
  let twoEnc ← encrypt e 2 n2
  nrLoop e c twoEnc iterations y

/-- Python `divide(cipher1, cipher2, iterations)`:
`multiply(cipher1, inverse(cipher2, iterations))`. -/
def divide (e : Engine) (c1 c2 : List Char) (n1 n2 : ℤ) (iterations : ℕ) :
    Except Err (List Char) := do
  let invC2 ← inverse e c2 n1 n2 iterations
  multiply e c1 invC2

/-- Python `encrypted_sum(cipher_list)`: fold `add` starting from `encrypt(0.0)`
(noise draw `n0`). -/
def encrypted_sum (e : Engine) (n0 : ℤ) (l : List (List Char)) :
    Except Err (List Char) := do
  let total ← encrypt e 0 n0
  l.foldlM (fun t c => add e t c) total

/-- Python `encrypted_average(cipher_list)`:
`scalar_multiply(encrypted_sum(cipher_list), 1 / n)`; the division `1 / n`
raises `ZeroDivisionError` on the empty list. -/
def encrypted_average (e : Engine) (n0 : ℤ) (l : List (List Char)) :
    Except Err (List Char) := do
  let total ← encrypted_sum e n0 l
  if l.length = 0 then throw Err.emptyInput
  else scalar_multiply e total (1 / (l.length : ℚ))

/-- Python `encrypted_variance(cipher_list)`: homomorphic `E[X^2] - (E[X])^2`,
with the internal `encrypt(0.0)` draws of the squares accumulator (`nsq`)
and of the inner `encrypted_average` (`navg`) made explicit. -/
def encrypted_variance (e : Engine) (nsq navg : ℤ) (l : List (List Char)) :
    Except Err (List Char) := do
  let s0 ← encrypt e 0 nsq
  let sumSq ← l.foldlM (fun acc c => do
      let cSq ← multiply e c c
      add e acc cSq) s0
  if l.length = 0 then throw Err.emptyInput
  else do
    let avgSq ← scalar_multiply e sumSq (1 / (l.length : ℚ))
    let avg ← encrypted_average e navg l
    let avgOfSq ← multiply e avg avg
    subtract e avgSq avgOfSq

/-- A ciphertext string accepted by `hexDecode`. -/
def Decodable (s : List Char) : Prop :=
  ∃ v, hexDecode s = Except.ok v

instance (s : List Char) : Decidable (Decodable s) :=
  match h : hexDecode s with
  | .ok v => isTrue ⟨v, h⟩
  | .error _ => isFalse (by
      rintro ⟨v, hv⟩
      rw [h] at hv
      cases hv)

/-- A well-formed produced ciphertext string: exactly `2 * byte_length`
hexadecimal characters. -/
def GoodStr (e : Engine) (s : List Char) : Prop :=
  s.length = 2 * e.byte_length ∧ s.all isHexDig = true

/-- The computation produced a well-formed ciphertext (the encoder's
failure branch was not taken). -/
def IsProduced (e : Engine) (x : Except Err (List Char)) : Prop :=
  ∃ s, x = Except.ok s ∧ GoodStr e s

/-- Decoded value of a ciphertext string (0 for undecodable input); used
only to state sums of decoded values. -/
def dec0 (c : List Char) : ℤ :=
  match hexDecode c with
  | .ok v => v
  | .error _ => 0

/-- Sum of the decoded values of a ciphertext list. -/
def sumDec (l : List (List Char)) : ℤ := (l.map dec0).sum

/-- Decoded value of `multiply c c` when `c` decodes to `v`. -/
def mulDec (e : Engine) (v : ℤ) : ℤ :=
  (rhe ((((v * v) % e.M : ℤ) : ℚ) / ((e.A * e.B * e.scale : ℤ) : ℚ))
    * e.A * e.B) % e.M

/-- Sum of the decoded values of the homomorphic squares of a list. -/
def sqDec (e : Engine) (l : List (List Char)) : ℤ :=
  (l.map (fun c => mulDec e (dec0 c))).sum

/-- Whether an `Except`-valued decryption returned a value within `tol`
of `target`. -/
def okNear (x : Except Err ℚ) (target tol : ℚ) : Bool :=
  match x with
  | .ok d => decide (|d - target| ≤ tol)
  | .error _ => false

/-- A small but fully valid engine configuration used for concrete
counterexamples: `scale = 10`, `noise_bound = 0`, 2-byte ciphertexts
(`M = 65536`), keys `A = 3`, `B = 5` (`5 * 52429 = 4 * 65536 + 1`). -/
def eS : Engine :=
  { scale := 10, noise_bound := 0, byte_length := 2,
    A := 3, B := 5, B_inv := 52429 }

/-- The engine `eS` with `noise_bound = 1`; used for witnesses. -/
def eW : Engine :=
  { scale := 10, noise_bound := 1, byte_length := 2,
    A := 3, B := 5, B_inv := 52429 }

/-- Python `pow(5, -1, 2 ^ 256)`. -/
def binv5 : ℤ := (4 * 2 ^ 256 + 1) / 5

/-- A default-configured engine (`scale = 100000`, `noise_bound = 10`,
`byte_length = 32`, so `M = 2 ^ 256`) with the admissible key draw
`A = getrandbits(120) | 1 = 3`, `B = getrandbits(120) | 1 = 5`. -/
def eD : Engine :=
  { scale := 100000, noise_bound := 10, byte_length := 32,
    A := 3, B := 5, B_inv := binv5 }

theorem ok_bind {α β : Type} (a : α) (f : α → Except Err β) :
    (Except.ok a >>= f) = f a := rfl

theorem error_bind {α β : Type} (er : Err) (f : α → Except Err β) :
    ((Except.error er : Except Err α) >>= f) = Except.error er := rfl

theorem hexEncode_emod (e : Engine) (x : ℤ) :
    hexEncode e (x % e.M) =
      Except.ok (toHexFixed (2 * e.byte_length) (x % e.M).toNat) := by
  unfold hexEncode
  rw [if_pos]
  exact ⟨Int.emod_nonneg x (ne_of_gt e.M_pos), Int.emod_lt_of_pos x e.M_pos⟩

theorem pow16_eq_M (e : Engine) : ((16 : ℕ) ^ (2 * e.byte_length) : ℤ) = e.M := by
  unfold Engine.M
  push_cast
  rw [show (16 : ℤ) = 2 ^ 4 by norm_num, ← pow_mul]
  ring_nf

theorem hexDecode_toHexFixed (e : Engine) {v : ℤ} (h0 : 0 ≤ v)
    (hM : v < e.M) :
    hexDecode (toHexFixed (2 * e.byte_length) v.toNat) = Except.ok v := by
  have hlt : v.toNat < 16 ^ (2 * e.byte_length) := by
    have h16 : (v.toNat : ℤ) < ((16 : ℕ) ^ (2 * e.byte_length) : ℤ) := by
      rw [Int.toNat_of_nonneg h0, pow16_eq_M e]
      exact hM
    exact_mod_cast h16
  unfold hexDecode
  rw [if_pos ⟨by rw [toHexFixed_length]; omega, toHexFixed_hex _ _⟩,
    intFromHex_toHexFixed hlt, Int.toNat_of_nonneg h0]

theorem hexDecode_encrypt (e : Engine) (m : ℚ) (noise : ℤ) :
    encrypt e m noise =
      Except.ok (toHexFixed (2 * e.byte_length)
        (((truncQ (m * e.scale) + noise) * e.A * e.B) % e.M).toNat) :=
  hexEncode_emod e _

theorem unblind (e : Engine) (hv : e.Valid) {b : ℤ} (hb : 0 ≤ b)
    (hA : b * e.A < e.M) :
    ((((b * e.A * e.B) % e.M) * e.B_inv) % e.M) = b * e.A := by
  obtain ⟨-, -, hA0, -, hBinv⟩ := hv
  have hM := e.M_pos
  have h1 : ((((b * e.A * e.B) % e.M) * e.B_inv) % e.M)
      = ((b * e.A * e.B * e.B_inv) % e.M) := by
    conv_rhs => rw [Int.mul_emod]
    rw [Int.mul_emod (((b * e.A * e.B) % e.M)) e.B_inv,
      Int.emod_emod_of_dvd _ dvd_rfl]
  have h2 : (b * e.A * e.B * e.B_inv) % e.M = (b * e.A) % e.M := by
    have hr : b * e.A * e.B * e.B_inv = b * e.A * (e.B * e.B_inv) := by ring
    rw [hr, Int.mul_emod, hBinv, mul_one, Int.emod_emod_of_dvd _ dvd_rfl]
  rw [h1, h2, Int.emod_eq_of_lt (mul_nonneg hb hA0.le) hA]

/-- Decrypting the canonical encoding of base `b` yields `round5 (b / scale)`,
provided `b * A` does not wrap modulo `M`. -/
theorem decrypt_encode_base (e : Engine) (hv : e.Valid) {b : ℤ} (hb : 0 ≤ b)
    (hA : b * e.A < e.M) :
    (hexEncode e ((b * e.A * e.B) % e.M) >>= decrypt e) =
      Except.ok (round5 ((b : ℚ) / (e.scale : ℚ))) := by
  have hA0 : (0 : ℤ) < e.A := hv.2.2.1
  rw [hexEncode_emod, ok_bind]
  unfold decrypt
  rw [hexDecode_toHexFixed e (Int.emod_nonneg _ (ne_of_gt e.M_pos))
    (Int.emod_lt_of_pos _ e.M_pos), ok_bind]
  rw [unblind e hv hb hA]
  have hcast : ((b * e.A : ℤ) : ℚ) / (e.A : ℚ) = (b : ℚ) := by
    push_cast
    rw [mul_div_assoc, div_self (by exact_mod_cast ne_of_gt hA0), mul_one]
  rw [hcast, rhe_intCast]
  rfl

/-- If the integer `b` is within `B0` of `m * scale`, then `round5 (b / scale)`
is within `B0 / scale + 1/200000` of `m`. -/
theorem round5_near (s : ℕ) (hs : 0 < s) (b : ℤ) (m B0 : ℚ)
    (h : |(b : ℚ) - m * s| ≤ B0) :
    |round5 ((b : ℚ) / s) - m| ≤ B0 / s + 1 / 200000 := by
  have hsQ : (0 : ℚ) < s := by exact_mod_cast hs
  have h1 := abs_round5_sub_le ((b : ℚ) / s)
  have h2 : |(b : ℚ) / s - m| ≤ B0 / s := by
    have he : (b : ℚ) / s - m = ((b : ℚ) - m * s) / s := by
      field_simp
      ring
    rw [he, abs_div, abs_of_pos hsQ]
    gcongr
  calc |round5 ((b : ℚ) / s) - m|
      ≤ |round5 ((b : ℚ) / s) - (b : ℚ) / s| + |(b : ℚ) / s - m| :=
        abs_sub_le _ _ _
    _ ≤ B0 / s + 1 / 200000 := by linarith

theorem base_near (e : Engine) (m : ℚ) (noise : ℤ)
    (hn : |noise| ≤ (e.noise_bound : ℤ)) :
    |((truncQ (m * e.scale) + noise : ℤ) : ℚ) - m * e.scale|
      ≤ (e.noise_bound : ℚ) + 1 := by
  have htr := abs_truncQ_sub_le (m * e.scale)
  have hnQ : |(noise : ℚ)| ≤ (e.noise_bound : ℚ) := by
    rw [← Int.cast_abs]
    exact_mod_cast hn
  have he : ((truncQ (m * e.scale) + noise : ℤ) : ℚ) - m * e.scale
      = ((truncQ (m * e.scale) : ℚ) - m * e.scale) + (noise : ℚ) := by
    push_cast
    ring
  rw [he]
  calc |((truncQ (m * e.scale) : ℚ) - m * e.scale) + (noise : ℚ)|
      ≤ |(truncQ (m * e.scale) : ℚ) - m * e.scale| + |(noise : ℚ)| :=
        abs_add _ _
    _ ≤ (e.noise_bound : ℚ) + 1 := by linarith

/-- Claim C1, counterexample to the stated bound: under the fully valid
configuration `eS` (`scale = 10`, `noiseBound = 0`), decrypting the
encryption of `m = 1.299` returns `1.2`, which misses `m` by `0.099`,
far beyond the claimed `noiseBound/scale + 10^-5 = 10^-5`: the fixed-point
truncation error `1/scale` is not covered by the claimed slack. -/
theorem c1_counterexample :
    Engine.Valid eS ∧
    (encrypt eS (1299/1000) 0 >>= decrypt eS) = Except.ok (6/5) ∧
    ¬(|(6/5 : ℚ) - 1299/1000| ≤
        (eS.noise_bound : ℚ) / (eS.scale : ℚ) + 1/100000) := by
  decide

/-- Claim C1 (amended): for every valid engine, plaintext `m` and drawn
noise within the bound, if the blinded base stays nonnegative and
`base * A` does not wrap modulo `M`, then
`|decrypt(encrypt(m)) - m| ≤ (noiseBound + 1)/scale + 10^-5`; the extra
`1/scale` accounts for the truncation `int(m * scale)`. -/
theorem c1_round_trip (e : Engine) (hv : e.Valid) (m : ℚ) (noise : ℤ)
    (hn : |noise| ≤ (e.noise_bound : ℤ))
    (hb : 0 ≤ truncQ (m * e.scale) + noise)
    (hA : (truncQ (m * e.scale) + noise) * e.A < e.M) :
    ∃ d, (encrypt e m noise >>= decrypt e) = Except.ok d ∧
      |d - m| ≤ ((e.noise_bound : ℚ) + 1) / (e.scale : ℚ) + 1 / 100000 := by
  have hs : 0 < e.scale := hv.1
  have hsQ : (0 : ℚ) < (e.scale : ℚ) := by exact_mod_cast hs
  refine ⟨round5 (((truncQ (m * e.scale) + noise : ℤ) : ℚ) / (e.scale : ℚ)),
    ?_, ?_⟩
  · exact decrypt_encode_base e hv hb hA
  · have hnear := base_near e m noise hn
    have h := round5_near e.scale hs (truncQ (m * e.scale) + noise) m
      ((e.noise_bound : ℚ) + 1) hnear
    have hmono : ((e.noise_bound : ℚ) + 1) / (e.scale : ℚ) + 1 / 200000
        ≤ ((e.noise_bound : ℚ) + 1) / (e.scale : ℚ) + 1 / 100000 := by
      linarith
    linarith

/-- Witness for the amended claim C1 at the concrete engine `eW` with
`m = 3/2` and noise `1`. -/
theorem c1_round_trip_witness :
    ∃ d, (encrypt eW (3/2) 1 >>= decrypt eW) = Except.ok d ∧
      |d - 3/2| ≤ ((eW.noise_bound : ℚ) + 1) / (eW.scale : ℚ) + 1 / 100000 :=
  c1_round_trip eW (by decide) (3/2) 1 (by decide) (by decide) (by decide)

/-- Claim C3, counterexample to the stated bound: under the valid
configuration `eS` with `noiseBound = 0`, the homomorphic sum of two
encryptions of `1.299` decrypts to `2.4`, missing `2.598` by `0.198`,
far beyond the claimed `2 * noiseBound/scale + 10^-5 = 10^-5`. -/
theorem c3_counterexample :
    Engine.Valid eS ∧
    (do
      let c1 ← encrypt eS (1299/1000) 0
      let c2 ← encrypt eS (1299/1000) 0
      let s ← add eS c1 c2
      decrypt eS s) = Except.ok (12/5) ∧
    ¬(|(12/5 : ℚ) - (1299/1000 + 1299/1000)| ≤
        2 * (eS.noise_bound : ℚ) / (eS.scale : ℚ) + 1/100000) := by
  decide

/-- Claim C3 (amended): with both drawn noises within the bound and the
summed base neither negative nor wrapping against `A` modulo `M`,
`decrypt(add(encrypt(m1), encrypt(m2)))` is within
`(2 * noiseBound + 2)/scale + 10^-5` of `m1 + m2`; the extra `2/scale`
accounts for the two truncations `int(m_i * scale)`. -/
theorem c3_additive_hom (e : Engine) (hv : e.Valid) (m1 m2 : ℚ)
    (n1 n2 : ℤ) (hn1 : |n1| ≤ (e.noise_bound : ℤ))
    (hn2 : |n2| ≤ (e.noise_bound : ℤ))
    (hb : 0 ≤ (truncQ (m1 * e.scale) + n1) + (truncQ (m2 * e.scale) + n2))
    (hA : ((truncQ (m1 * e.scale) + n1) + (truncQ (m2 * e.scale) + n2))
        * e.A < e.M) :
    ∃ d, (do
      let c1 ← encrypt e m1 n1
      let c2 ← encrypt e m2 n2
      let s ← add e c1 c2
      decrypt e s) = Except.ok d ∧
      |d - (m1 + m2)| ≤
        (2 * (e.noise_bound : ℚ) + 2) / (e.scale : ℚ) + 1 / 100000 := by
  have hs : 0 < e.scale := hv.1
  have hM := e.M_pos
  set b1 := truncQ (m1 * e.scale) + n1 with hb1
  set b2 := truncQ (m2 * e.scale) + n2 with hb2
  refine ⟨round5 (((b1 + b2 : ℤ) : ℚ) / (e.scale : ℚ)), ?_, ?_⟩
  · simp only [hexDecode_encrypt, ok_bind, add]
    rw [hexDecode_toHexFixed e (Int.emod_nonneg _ (ne_of_gt hM))
        (Int.emod_lt_of_pos _ hM), ok_bind,
      hexDecode_toHexFixed e (Int.emod_nonneg _ (ne_of_gt hM))
        (Int.emod_lt_of_pos _ hM), ok_bind]
    have hsum : ((b1 * e.A * e.B) % e.M + (b2 * e.A * e.B) % e.M) % e.M
        = ((b1 + b2) * e.A * e.B) % e.M := by
      rw [← Int.add_emod]
      have : b1 * e.A * e.B + b2 * e.A * e.B = (b1 + b2) * e.A * e.B := by
        ring
      rw [this]
    rw [hsum]
    exact decrypt_encode_base e hv hb hA
  · have h1 := base_near e m1 n1 hn1
    have h2 := base_near e m2 n2 hn2
    have hnear : |((b1 + b2 : ℤ) : ℚ) - (m1 + m2) * (e.scale : ℚ)|
        ≤ 2 * (e.noise_bound : ℚ) + 2 := by
      have he : ((b1 + b2 : ℤ) : ℚ) - (m1 + m2) * (e.scale : ℚ)
          = (((b1 : ℤ) : ℚ) - m1 * (e.scale : ℚ))
            + (((b2 : ℤ) : ℚ) - m2 * (e.scale : ℚ)) := by
        push_cast
        ring
      rw [he]
      calc |(((b1 : ℤ) : ℚ) - m1 * (e.scale : ℚ))
            + (((b2 : ℤ) : ℚ) - m2 * (e.scale : ℚ))|
          ≤ |((b1 : ℤ) : ℚ) - m1 * (e.scale : ℚ)|
            + |((b2 : ℤ) : ℚ) - m2 * (e.scale : ℚ)| := abs_add _ _
        _ ≤ 2 * (e.noise_bound : ℚ) + 2 := by linarith
    have h := round5_near e.scale hs (b1 + b2) (m1 + m2)
      (2 * (e.noise_bound : ℚ) + 2) hnear
    linarith

/-- Witness for the amended claim C3 at the concrete engine `eW` with
`m1 = m2 = 3/2` and noises `1, 1`. -/
theorem c3_additive_hom_witness :
    ∃ d, (do
      let c1 ← encrypt eW (3/2) 1
      let c2 ← encrypt eW (3/2) 1
      let s ← add eW c1 c2
      decrypt eW s) = Except.ok d ∧
      |d - (3/2 + 3/2)| ≤
        (2 * (eW.noise_bound : ℚ) + 2) / (eW.scale : ℚ) + 1 / 100000 :=
  c3_additive_hom eW (by decide) (3/2) (3/2) 1 1 (by decide) (by decide)
    (by decide) (by decide)

/-- Claim C5, counterexample: `encrypt` computes its base with Python's
`int(m * scale)`, which truncates toward zero, not with round-to-nearest.
Under `eS` (`scale = 10`, `noiseBound = 0`, so the only admissible noise
is `0`), encrypting `m = 0.27` encodes base `2`, not the claimed
`round(2.7) = 3`. -/
theorem c5_counterexample :
    Engine.Valid eS ∧
    encrypt eS (27/100) 0 ≠
      hexEncode eS
        ((rhe ((27/100 : ℚ) * (eS.scale : ℚ)) + 0) * eS.A * eS.B % eS.M) := by
  decide

/-- Claim C5 (amended): for every engine, plaintext and drawn noise,
`encrypt(m)` succeeds and returns the fixed-width encoding of
`((int(m * scale) + noise) * A * B) mod M`, where `int` truncates toward
zero. -/
theorem c5_encrypt_form (e : Engine) (m : ℚ) (noise : ℤ) :
    ∃ s, encrypt e m noise = Except.ok s ∧
      s.length = 2 * e.byte_length ∧
      hexDecode s =
        Except.ok (((truncQ (m * e.scale) + noise) * e.A * e.B) % e.M) :=
  ⟨_, hexDecode_encrypt e m noise, toHexFixed_length _ _,
    hexDecode_toHexFixed e (Int.emod_nonneg _ (ne_of_gt e.M_pos))
      (Int.emod_lt_of_pos _ e.M_pos)⟩

set_option maxRecDepth 8000 in
/-- Claim C2, failing instance: under the valid default-parameter engine
`eD`, the canonical ciphertext of base `1000001` (an encryption of `10.0`
with noise `1`) is mapped by `scalar_multiply` with `k = 1/2` to the ring
element `7500008 = round(15000015 / 2)`, and no integer base near the
expected `1000001 / 2` (here `499990 .. 500011`) re-blinds to that value:
`scalar_multiply` does not preserve the canonical form
`(base * A * B) mod M`. -/
theorem c2_scalar_blinding_break :
    Engine.Valid eD ∧
    (do
      let c ← encrypt eD 10 1
      scalar_multiply eD c (1/2)) = hexEncode eD 7500008 ∧
    ∀ b ∈ Finset.Icc (499990 : ℤ) 500011,
      (b * (eD.A * eD.B)) % eD.M ≠ 7500008 := by
  decide

set_option maxRecDepth 8000 in
/-- Claim C4, failing instance: under the valid default-parameter engine
`eD`, with plaintexts `7.0` and `3.0` and noise draws `1` and `0` (and
noise `0` for the internal `encrypt(0.0)`), `encryptedSum` decrypts to
within `1` of `10.0`, but `encryptedAverage` does not decrypt to within
`1` of `5.0`: the summed base `1000001` is odd, `round(decode * 1/2)`
destroys the blinding factor, and the decrypted average is astronomically
far from `5.0`. -/
theorem c4_average_garbage :
    Engine.Valid eD ∧
    okNear (do
      let c1 ← encrypt eD 7 1
      let c2 ← encrypt eD 3 0
      let s ← encrypted_sum eD 0 [c1, c2]
      decrypt eD s) 10 1 = true ∧
    okNear (do
      let c1 ← encrypt eD 7 1
      let c2 ← encrypt eD 3 0
      let a ← encrypted_average eD 0 [c1, c2]
      decrypt eD a) 5 1 = false := by
  decide

/-- Claim C6, failing instance: `_decode` never compares the string length
against `2 * byteWidth`; the valid-hex string `"00"` of length `2` is
decoded to `0` under the default 32-byte configuration instead of being
rejected with a `FormatError`. -/
theorem c6_wrong_length_accepted :
    hexDecode ['0', '0'] = Except.ok 0 ∧
    (['0', '0'] : List Char).length ≠ 2 * eD.byte_length := by
  decide

/-- Claim C7: `encryptedAverage` on the empty sequence fails with
`EmptyInputError` (the `1 / len` division), and on every non-empty
sequence it is `scalarMultiply(encryptedSum(seq), 1 / len(seq))`. -/
theorem c7_average_empty_and_formula (e : Engine) (n0 : ℤ)
    (l : List (List Char)) (hne : l ≠ []) :
    encrypted_average e n0 [] = Except.error Err.emptyInput ∧
    encrypted_average e n0 l =
      (encrypted_sum e n0 l >>= fun t =>
        scalar_multiply e t (1 / (l.length : ℚ))) := by
  constructor
  · simp only [encrypted_average, encrypted_sum, hexDecode_encrypt, ok_bind,
      List.foldlM_nil, pure_bind, List.length_nil, if_pos]
    rfl
  · have hlen : ¬(l.length = 0) := by
      simpa using hne
    simp only [encrypted_average, if_neg hlen]

/-- Witness for claim C7 at the concrete engine `eS` with the singleton
sequence `["000f"]`. -/
theorem c7_average_witness :
    encrypted_average eS 0 [] = Except.error Err.emptyInput ∧
    encrypted_average eS 0 [['0', '0', '0', 'f']] =
      (encrypted_sum eS 0 [['0', '0', '0', 'f']] >>= fun t =>
        scalar_multiply eS t
          (1 / (([['0', '0', '0', 'f']] : List (List Char)).length : ℚ))) :=
  c7_average_empty_and_formula eS 0 [['0', '0', '0', 'f']] (by decide)

theorem nrLoop_iterate (e : Engine) (c t : List Char) :
    ∀ (n : ℕ) (x : Except Err (List Char)),
      (x >>= nrLoop e c t n) = (fun z => z >>= nrStep e c t)^[n] x := by
  intro n
  induction n with
  | zero =>
    intro x
    simp [nrLoop]
  | succ k ih =>
    intro x
    rw [Function.iterate_succ_apply, ← ih (x >>= nrStep e c t)]
    simp [nrLoop, bind_assoc]

/-- Claim C8: `inverse(cipher, N)` starts from `y = encrypt(1.0)` and a
once-computed `encrypt(2.0)`, performs exactly `N` Newton transitions
`cy = multiply(cipher, y)`; `diff = subtract(two_enc, cy)`;
`y = multiply(y, diff)` (the `N`-fold iterate of `nrStep`), returning the
final `y`; and `divide(c1, c2, N)` is `multiply(c1, inverse(c2, N))`. -/
theorem c8_inverse_structure (e : Engine) (c c1 c2 : List Char)
    (n1 n2 : ℤ) (n : ℕ) :
    inverse e c n1 n2 n = (do
      let y ← encrypt e 1 n1
      let twoEnc ← encrypt e 2 n2
      (fun z => z >>= nrStep e c twoEnc)^[n] (pure y)) ∧
    divide e c1 c2 n1 n2 n =
      (inverse e c2 n1 n2 n >>= fun ic => multiply e c1 ic) := by
  constructor
  · unfold inverse
    simp only [hexDecode_encrypt, ok_bind]
    rw [← nrLoop_iterate, pure_bind]
  · rfl

theorem hexDecode_of_good (e : Engine) {s : List Char} (h : GoodStr e s) :
    hexDecode s = Except.ok (intFromHex s : ℤ) := by
  unfold hexDecode
  rw [if_pos ⟨by rw [h.1]; omega, h.2⟩]

theorem decodable_of_good (e : Engine) {s : List Char} (h : GoodStr e s) :
    Decodable s :=
  ⟨_, hexDecode_of_good e h⟩

theorem isProduced_encode_emod (e : Engine) (x : ℤ) :
    IsProduced e (hexEncode e (x % e.M)) := by
  rw [hexEncode_emod]
  exact ⟨_, rfl, toHexFixed_length _ _, toHexFixed_hex _ _⟩

theorem isProduced_bind {e : Engine} {x : Except Err (List Char)}
    (hx : IsProduced e x) (f : List Char → Except Err (List Char))
    (hf : ∀ s, GoodStr e s → IsProduced e (f s)) :
    IsProduced e (x >>= f) := by
  obtain ⟨s, rfl, hs⟩ := hx
  rw [ok_bind]
  exact hf s hs

theorem add_eq_of_decode {e : Engine} {c1 c2 : List Char} {v1 v2 : ℤ}
    (h1 : hexDecode c1 = Except.ok v1) (h2 : hexDecode c2 = Except.ok v2) :
    add e c1 c2 = hexEncode e ((v1 + v2) % e.M) := by
  unfold add
  rw [h1, ok_bind, h2, ok_bind]

theorem subtract_eq_of_decode {e : Engine} {c1 c2 : List Char} {v1 v2 : ℤ}
    (h1 : hexDecode c1 = Except.ok v1) (h2 : hexDecode c2 = Except.ok v2) :
    subtract e c1 c2 = hexEncode e ((v1 - v2) % e.M) := by
  unfold subtract
  rw [h1, ok_bind, h2, ok_bind]

theorem scalar_multiply_eq_of_decode {e : Engine} {c : List Char} {v : ℤ}
    (k : ℚ) (h : hexDecode c = Except.ok v) :
    scalar_multiply e c k = hexEncode e ((rhe ((v : ℚ) * k)) % e.M) := by
  unfold scalar_multiply
  rw [h, ok_bind]

theorem multiply_eq_of_decode {e : Engine} {c1 c2 : List Char} {v1 v2 : ℤ}
    (h1 : hexDecode c1 = Except.ok v1) (h2 : hexDecode c2 = Except.ok v2) :
    multiply e c1 c2 = hexEncode e
      ((rhe ((((v1 * v2) % e.M : ℤ) : ℚ) /
        ((e.A * e.B * e.scale : ℤ) : ℚ)) * e.A * e.B) % e.M) := by
  unfold multiply
  rw [h1, ok_bind, h2, ok_bind]

theorem isProduced_encrypt (e : Engine) (m : ℚ) (noise : ℤ) :
    IsProduced e (encrypt e m noise) :=
  isProduced_encode_emod e _

theorem isProduced_add {e : Engine} {c1 c2 : List Char}
    (h1 : Decodable c1) (h2 : Decodable c2) : IsProduced e (add e c1 c2) := by
  obtain ⟨v1, hv1⟩ := h1
  obtain ⟨v2, hv2⟩ := h2
  rw [add_eq_of_decode hv1 hv2]
  exact isProduced_encode_emod e _

theorem isProduced_subtract {e : Engine} {c1 c2 : List Char}
    (h1 : Decodable c1) (h2 : Decodable c2) :
    IsProduced e (subtract e c1 c2) := by
  obtain ⟨v1, hv1⟩ := h1
  obtain ⟨v2, hv2⟩ := h2
  rw [subtract_eq_of_decode hv1 hv2]
  exact isProduced_encode_emod e _

theorem isProduced_scalar_multiply {e : Engine} {c : List Char} (k : ℚ)
    (h : Decodable c) : IsProduced e (scalar_multiply e c k) := by
  obtain ⟨v, hv⟩ := h
  rw [scalar_multiply_eq_of_decode k hv]
  exact isProduced_encode_emod e _

theorem isProduced_multiply {e : Engine} {c1 c2 : List Char}
    (h1 : Decodable c1) (h2 : Decodable c2) :
    IsProduced e (multiply e c1 c2) := by
  obtain ⟨v1, hv1⟩ := h1
  obtain ⟨v2, hv2⟩ := h2
  rw [multiply_eq_of_decode hv1 hv2]
  exact isProduced_encode_emod e _

theorem emod_add_left_emod (a b n : ℤ) : (a % n + b) % n = (a + b) % n := by
  rw [Int.add_emod, Int.emod_emod_of_dvd _ dvd_rfl, ← Int.add_emod]

theorem foldlM_add_eq (e : Engine) (l : List (List Char))
    (hl : ∀ c ∈ l, Decodable c) :
    ∀ v : ℤ, 0 ≤ v → v < e.M →
      l.foldlM (fun t c => add e t c)
          (toHexFixed (2 * e.byte_length) v.toNat)
        = hexEncode e ((v + sumDec l) % e.M) := by
  induction l with
  | nil =>
    intro v h0 hM
    rw [List.foldlM_nil]
    simp only [sumDec, List.map_nil, List.sum_nil, add_zero]
    rw [Int.emod_eq_of_lt h0 hM]
    unfold hexEncode
    rw [if_pos ⟨h0, hM⟩]
    rfl
  | cons c cs ih =>
    intro v h0 hM
    obtain ⟨w, hw⟩ := hl c (by simp)
    rw [List.foldlM_cons,
      add_eq_of_decode (hexDecode_toHexFixed e h0 hM) hw,
      hexEncode_emod, ok_bind,
      ih (fun d hd => hl d (by simp [hd])) ((v + w) % e.M)
        (Int.emod_nonneg _ (ne_of_gt e.M_pos))
        (Int.emod_lt_of_pos _ e.M_pos)]
    congr 1
    have hdec : sumDec (c :: cs) = w + sumDec cs := by
      simp [sumDec, dec0, hw]
    rw [hdec, emod_add_left_emod]
    congr 1
    ring

/-- The decoded value of `encrypt(0.0)` with noise `n0`. -/
def z0 (e : Engine) (n0 : ℤ) : ℤ :=
  ((truncQ ((0 : ℚ) * (e.scale : ℚ)) + n0) * e.A * e.B) % e.M

theorem encrypted_sum_eq (e : Engine) (n0 : ℤ) (l : List (List Char))
    (hl : ∀ c ∈ l, Decodable c) :
    encrypted_sum e n0 l = hexEncode e ((z0 e n0 + sumDec l) % e.M) := by
  unfold encrypted_sum
  rw [hexDecode_encrypt, ok_bind]
  exact foldlM_add_eq e l hl (z0 e n0)
    (Int.emod_nonneg _ (ne_of_gt e.M_pos)) (Int.emod_lt_of_pos _ e.M_pos)

theorem foldlM_sq_eq (e : Engine) (l : List (List Char))
    (hl : ∀ c ∈ l, Decodable c) :
    ∀ v : ℤ, 0 ≤ v → v < e.M →
      l.foldlM (fun acc c => do
          let cSq ← multiply e c c
          add e acc cSq) (toHexFixed (2 * e.byte_length) v.toNat)
        = hexEncode e ((v + sqDec e l) % e.M) := by
  induction l with
  | nil =>
    intro v h0 hM
    rw [List.foldlM_nil]
    simp only [sqDec, List.map_nil, List.sum_nil, add_zero]
    rw [Int.emod_eq_of_lt h0 hM]
    unfold hexEncode
    rw [if_pos ⟨h0, hM⟩]
    rfl
  | cons c cs ih =>
    intro v h0 hM
    obtain ⟨w, hw⟩ := hl c (by simp)
    have hmul : multiply e c c = hexEncode e (mulDec e w) :=
      multiply_eq_of_decode hw hw
    have hmd : mulDec e w = (rhe ((((w * w) % e.M : ℤ) : ℚ) /
        ((e.A * e.B * e.scale : ℤ) : ℚ)) * e.A * e.B) % e.M := rfl
    rw [List.foldlM_cons, hmul, hmd, hexEncode_emod, ok_bind,
      add_eq_of_decode (hexDecode_toHexFixed e h0 hM)
        (hexDecode_toHexFixed e (Int.emod_nonneg _ (ne_of_gt e.M_pos))
          (Int.emod_lt_of_pos _ e.M_pos)),
      hexEncode_emod, ok_bind,
      ih (fun d hd => hl d (by simp [hd])) _
        (Int.emod_nonneg _ (ne_of_gt e.M_pos))
        (Int.emod_lt_of_pos _ e.M_pos)]
    congr 1
    have hdec : sqDec e (c :: cs) = mulDec e w + sqDec e cs := by
      simp [sqDec, dec0, hw]
    rw [hdec, emod_add_left_emod, ← hmd]
    congr 1
    ring

/-- Claim C9: with identical internal noise draws, permuting a finite
non-empty sequence of decodable ciphertexts changes none of
`encryptedSum`, `encryptedAverage`, `encryptedVariance`: the folds
aggregate by commutative modular addition. -/
theorem c9_permutation_invariance (e : Engine) (l l' : List (List Char))
    (hp : l.Perm l') (hl : ∀ c ∈ l, Decodable c) (_hne : l ≠ [])
    (n0 nsq navg : ℤ) :
    encrypted_sum e n0 l = encrypted_sum e n0 l' ∧
    encrypted_average e n0 l = encrypted_average e n0 l' ∧
    encrypted_variance e nsq navg l = encrypted_variance e nsq navg l' := by
  have hl' : ∀ c ∈ l', Decodable c := fun c hc => hl c (hp.mem_iff.mpr hc)
  have hsum : sumDec l = sumDec l' := (hp.map dec0).sum_eq
  have hsq : sqDec e l = sqDec e l' :=
    (hp.map (fun c => mulDec e (dec0 c))).sum_eq
  have hlen : l.length = l'.length := hp.length_eq
  have hS : ∀ nx : ℤ, encrypted_sum e nx l = encrypted_sum e nx l' := by
    intro nx
    rw [encrypted_sum_eq e nx l hl, encrypted_sum_eq e nx l' hl', hsum]
  have hAvg : ∀ nx : ℤ, encrypted_average e nx l = encrypted_average e nx l' := by
    intro nx
    unfold encrypted_average
    rw [hS nx]
    simp only [hlen]
  refine ⟨hS n0, hAvg n0, ?_⟩
  unfold encrypted_variance
  simp only [hexDecode_encrypt, ok_bind]
  rw [foldlM_sq_eq e l hl _ (Int.emod_nonneg _ (ne_of_gt e.M_pos))
      (Int.emod_lt_of_pos _ e.M_pos),
    foldlM_sq_eq e l' hl' _ (Int.emod_nonneg _ (ne_of_gt e.M_pos))
      (Int.emod_lt_of_pos _ e.M_pos),
    hsq]
  simp only [hlen, hAvg navg]

/-- Witness for claim C9 at the concrete engine `eS`: swapping the two
ciphertexts `"000f"` and `"001e"` leaves sum, average and variance
unchanged. -/
theorem c9_permutation_invariance_witness :
    encrypted_sum eS 0 [['0', '0', '0', 'f'], ['0', '0', '1', 'e']] =
      encrypted_sum eS 0 [['0', '0', '1', 'e'], ['0', '0', '0', 'f']] ∧
    encrypted_average eS 0 [['0', '0', '0', 'f'], ['0', '0', '1', 'e']] =
      encrypted_average eS 0 [['0', '0', '1', 'e'], ['0', '0', '0', 'f']] ∧
    encrypted_variance eS 0 0 [['0', '0', '0', 'f'], ['0', '0', '1', 'e']] =
      encrypted_variance eS 0 0 [['0', '0', '1', 'e'], ['0', '0', '0', 'f']] :=
  c9_permutation_invariance eS
    [['0', '0', '0', 'f'], ['0', '0', '1', 'e']]
    [['0', '0', '1', 'e'], ['0', '0', '0', 'f']]
    (by decide) (by decide) (by decide) 0 0 0

theorem isProduced_nrStep {e : Engine} {c t y : List Char}
    (hc : Decodable c) (ht : Decodable t) (hy : GoodStr e y) :
    IsProduced e (nrStep e c t y) := by
  unfold nrStep
  apply isProduced_bind (isProduced_multiply hc (decodable_of_good e hy))
  intro cy hcy
  apply isProduced_bind (isProduced_subtract ht (decodable_of_good e hcy))
  intro diff hdiff
  exact isProduced_multiply (decodable_of_good e hy)
    (decodable_of_good e hdiff)

theorem isProduced_nrLoop {e : Engine} {c t : List Char}
    (hc : Decodable c) (ht : Decodable t) :
    ∀ (n : ℕ) (y : List Char), GoodStr e y →
      IsProduced e (nrLoop e c t n y) := by
  intro n
  induction n with
  | zero =>
    intro y hy
    exact ⟨y, rfl, hy⟩
  | succ k ih =>
    intro y hy
    exact isProduced_bind (isProduced_nrStep hc ht hy)
      (nrLoop e c t k) (fun s hs => ih s hs)

theorem isProduced_inverse {e : Engine} {c : List Char} (hc : Decodable c)
    (n1 n2 : ℤ) (iters : ℕ) :
    IsProduced e (inverse e c n1 n2 iters) := by
  unfold inverse
  simp only [hexDecode_encrypt, ok_bind]
  refine isProduced_nrLoop hc ?_ iters _
    ⟨toHexFixed_length _ _, toHexFixed_hex _ _⟩
  exact decodable_of_good e ⟨toHexFixed_length _ _, toHexFixed_hex _ _⟩

theorem isProduced_sum {e : Engine} (n0 : ℤ) {l : List (List Char)}
    (hl : ∀ c ∈ l, Decodable c) : IsProduced e (encrypted_sum e n0 l) := by
  rw [encrypted_sum_eq e n0 l hl]
  exact isProduced_encode_emod e _

theorem isProduced_average {e : Engine} (n0 : ℤ) {l : List (List Char)}
    (hl : ∀ c ∈ l, Decodable c) (hne : l ≠ []) :
    IsProduced e (encrypted_average e n0 l) := by
  unfold encrypted_average
  apply isProduced_bind (isProduced_sum n0 hl)
  intro s hs
  rw [if_neg (by simpa using hne)]
  exact isProduced_scalar_multiply _ (decodable_of_good e hs)

theorem foldlM_sq_produced {e : Engine} {l : List (List Char)}
    (hl : ∀ c ∈ l, Decodable c) :
    ∀ s, GoodStr e s →
      IsProduced e (l.foldlM (fun acc c => do
        let cSq ← multiply e c c
        add e acc cSq) s) := by
  induction l with
  | nil =>
    intro s hs
    exact ⟨s, rfl, hs⟩
  | cons c cs ih =>
    intro s hs
    rw [List.foldlM_cons]
    have hc : Decodable c := hl c (by simp)
    apply isProduced_bind
      (isProduced_bind (isProduced_multiply hc hc)
        (fun cSq => add e s cSq)
        (fun t ht => isProduced_add (decodable_of_good e hs)
          (decodable_of_good e ht)))
    exact fun s' hs' => ih (fun d hd => hl d (by simp [hd])) s' hs'

theorem isProduced_variance {e : Engine} (nsq navg : ℤ)
    {l : List (List Char)} (hl : ∀ c ∈ l, Decodable c) (hne : l ≠ []) :
    IsProduced e (encrypted_variance e nsq navg l) := by
  unfold encrypted_variance
  apply isProduced_bind (isProduced_encrypt e 0 nsq)
  intro s0 hs0
  apply isProduced_bind (foldlM_sq_produced hl s0 hs0)
  intro sumSq hsumSq
  rw [if_neg (by simpa using hne)]
  apply isProduced_bind
    (isProduced_scalar_multiply _ (decodable_of_good e hsumSq))
  intro avgSq havgSq
  apply isProduced_bind (isProduced_average navg hl hne)
  intro avg havg
  apply isProduced_bind
    (isProduced_multiply (decodable_of_good e havg) (decodable_of_good e havg))
  intro avgOfSq havgOfSq
  exact isProduced_subtract (decodable_of_good e havgSq)
    (decodable_of_good e havgOfSq)

/-- Claim C10: on a valid engine, every public operation applied to
decodable inputs (non-empty sequences for average/variance) reaches the
encoder with a value already reduced into `[0, M)`, so it succeeds and
yields a ciphertext of exactly `2 * byte_length` hexadecimal characters. -/
theorem c10_encoder_totality (e : Engine) (_hv : e.Valid) (m : ℚ)
    (noise n0 n1 n2 nsq navg : ℤ) (k : ℚ) (c1 c2 : List Char)
    (h1 : Decodable c1) (h2 : Decodable c2) (l : List (List Char))
    (hl : ∀ c ∈ l, Decodable c) (hne : l ≠ []) (iters : ℕ) :
    IsProduced e (encrypt e m noise) ∧
    IsProduced e (add e c1 c2) ∧
    IsProduced e (subtract e c1 c2) ∧
    IsProduced e (scalar_multiply e c1 k) ∧
    IsProduced e (multiply e c1 c2) ∧
    IsProduced e (inverse e c1 n1 n2 iters) ∧
    IsProduced e (divide e c1 c2 n1 n2 iters) ∧
    IsProduced e (encrypted_sum e n0 l) ∧
    IsProduced e (encrypted_average e n0 l) ∧
    IsProduced e (encrypted_variance e nsq navg l) := by
  refine ⟨isProduced_encrypt e m noise, isProduced_add h1 h2,
    isProduced_subtract h1 h2, isProduced_scalar_multiply k h1,
    isProduced_multiply h1 h2, isProduced_inverse h1 n1 n2 iters, ?_,
    isProduced_sum n0 hl, isProduced_average n0 hl hne,
    isProduced_variance nsq navg hl hne⟩
  unfold divide
  apply isProduced_bind (isProduced_inverse h2 n1 n2 iters)
  intro s hs
  exact isProduced_multiply h1 (decodable_of_good e hs)

/-- Witness for claim C10 at the concrete engine `eS` with the decodable
ciphertexts `"000f"`, `"001e"` and the singleton sequence `["000f"]`. -/
theorem c10_encoder_totality_witness :
    IsProduced eS (encrypt eS (3/2) 1) ∧
    IsProduced eS (add eS ['0', '0', '0', 'f'] ['0', '0', '1', 'e']) ∧
    IsProduced eS (subtract eS ['0', '0', '0', 'f'] ['0', '0', '1', 'e']) ∧
    IsProduced eS (scalar_multiply eS ['0', '0', '0', 'f'] (1/2)) ∧
    IsProduced eS (multiply eS ['0', '0', '0', 'f'] ['0', '0', '1', 'e']) ∧
    IsProduced eS (inverse eS ['0', '0', '0', 'f'] 0 0 1) ∧
    IsProduced eS (divide eS ['0', '0', '0', 'f'] ['0', '0', '1', 'e'] 0 0 1) ∧
    IsProduced eS (encrypted_sum eS 0 [['0', '0', '0', 'f']]) ∧
    IsProduced eS (encrypted_average eS 0 [['0', '0', '0', 'f']]) ∧
    IsProduced eS (encrypted_variance eS 0 0 [['0', '0', '0', 'f']]) :=
  c10_encoder_totality eS (by decide) (3/2) 1 0 0 0 0 0 (1/2)
    ['0', '0', '0', 'f'] ['0', '0', '1', 'e'] (by decide) (by decide)
    [['0', '0', '0', 'f']] (by decide) (by decide) 1

end CAO
